import Mathlib

/-!
Verification of the `skunk` YAML merge engine (`pkg/yamlparser/parser.go`).

The development shallowly embeds the Go source:

* lines and documents are `List Char`; a document is split on `'\n'` exactly
  as `strings.Split(yamlText, "\n")` does;
* `preprocessMultipleMergeKeys` is embedded as a fold over the lines with an
  explicit state (`PPState`), mirroring the Go loop variable for variable;
* the directory scanner and orchestrator are embedded over an explicit
  filesystem model (`FSEntry`), with `Except` for Go's `error` returns;
* the external go-yaml codec (alias resolution, merge semantics, marshal)
  is not part of the repository; where a claim depends on it, the relevant
  behaviour is modelled from the specification and marked as such.
-/

namespace Skunk

/-! ## Go string helpers

`isGoSpace` is the whitespace class trimmed by Go's `strings.TrimSpace`
(`unicode.IsSpace` over Latin-1: tab, newline, vertical tab, form feed,
carriage return, space, NEL, NBSP). -/

def isGoSpace (c : Char) : Bool :=
  c = ' ' || c = '\t' || c = '\n' || c = Char.ofNat 11 || c = Char.ofNat 12 ||
  c = '\r' || c = Char.ofNat 0x85 || c = Char.ofNat 0xA0

/-- A raw text line, as a list of characters. -/
abbrev Line := List Char

/-- `strings.TrimLeft(l, " ")`: drop leading space characters (spaces only). -/
def trimLeftSpaces (l : Line) : Line := l.dropWhile (fun c => c = ' ')

/-- Leading-space count: `len(line) - len(strings.TrimLeft(line, " "))`. -/
def leadingIndent (l : Line) : Nat := l.length - (trimLeftSpaces l).length

/-- Left half of `strings.TrimSpace`. -/
def goTrimLeft (l : Line) : Line := l.dropWhile isGoSpace

/-- Right half of `strings.TrimSpace` (drop trailing Go whitespace). -/
def goTrimRight (l : Line) : Line := l.rdropWhile isGoSpace

/-- `strings.TrimSpace`: trim Go whitespace from both ends. -/
def goTrimSpace (l : Line) : Line := goTrimRight (goTrimLeft l)

/-- The merge marker `"<<:"`. -/
def mergeMarker : Line := ['<', '<', ':']

/-- `strings.HasPrefix(strings.TrimSpace(line), "<<:")`: the line-classifier
used throughout `preprocessMultipleMergeKeys`. -/
def isMergeLine (l : Line) : Bool := mergeMarker.isPrefixOf (goTrimSpace l)

/-- `strings.Join(xs, sep)`. -/
def joinSep (sep : Line) : List Line → Line
  | [] => []
  | [x] => x
  | x :: y :: xs => x ++ sep ++ joinSep sep (y :: xs)

/-- `strings.Split(s, "\n")`: split on every newline, keeping empty pieces
(the result is never empty; splitting the empty string gives `[[]]`). -/
def splitLines : List Char → List Line
  | [] => [[]]
  | c :: cs =>
    if c = '\n' then [] :: splitLines cs
    else
      match splitLines cs with
      | [] => [[c]]
      | l :: ls => (c :: l) :: ls

/-- `strings.Join(lines, "\n")`. -/
def joinLines : List Line → List Char
  | [] => []
  | [l] => l
  | l :: l' :: ls => l ++ '\n' :: joinLines (l' :: ls)

/-! ## The merge-key normalizer

State of the Go loop in `preprocessMultipleMergeKeys`:

* `result`     — the `result` slice;
* `mergeKeys`  — the `mergeKeys` slice (trimmed merge lines of the open group);
* `prevIndent` — the `prevIndent` variable;
* `prevIsMerge` — whether the previous input line satisfies
  `strings.HasPrefix(strings.TrimSpace(lines[i-1]), "<<:")`.  The Go code
  reads `lines[i-1]` directly and additionally short-circuits on `i == 0`;
  carrying the classification of the previous line in the state with initial
  value `false` is equivalent: at `i = 0` both make the group-start condition
  true. -/
structure PPState where
  result : List Line
  mergeKeys : List Line
  prevIndent : Nat
  prevIsMerge : Bool

/-- Lines emitted when a group of merge keys is flushed: one merge key is
kept as-is (re-indented), several are combined into
`"<<: [" ++ strings.Join(mergeKeys, ", ") ++ "]"`. -/
def flushGroup (indent : Nat) : List Line → List Line
  | [] => []
  | [k] => [List.replicate indent ' ' ++ k]
  | k :: k' :: ks =>
    [List.replicate indent ' ' ++ ('<' :: '<' :: ':' :: ' ' :: '[' :: []) ++
      joinSep (',' :: ' ' :: []) (k :: k' :: ks) ++ [']']]

/-- One iteration of the loop body of `preprocessMultipleMergeKeys`.
`isMergeLine line` is Go's `strings.HasPrefix(trimmedLine, "<<:")` with
`trimmedLine := strings.TrimSpace(line)`. -/
def ppStep (s : PPState) (line : Line) : PPState :=
  if isMergeLine line = true then
    if leadingIndent line ≠ s.prevIndent ∨ s.prevIsMerge = false then
      { s with mergeKeys := [goTrimSpace line], prevIndent := leadingIndent line,
               prevIsMerge := true }
    else
      { s with mergeKeys := s.mergeKeys ++ [goTrimSpace line], prevIsMerge := true }
  else if s.mergeKeys.isEmpty then
    { s with result := s.result ++ [line], prevIsMerge := false }
  else
    { result := s.result ++ flushGroup s.prevIndent s.mergeKeys ++ [line],
      mergeKeys := [], prevIndent := s.prevIndent, prevIsMerge := false }

/-- The whole loop. -/
def ppProcess (ls : List Line) (s : PPState) : PPState := ls.foldl ppStep s

/-- Initial state of the loop. -/
def ppInit : PPState := ⟨[], [], 0, false⟩

/-- After the loop: flush a group left open at end of file. -/
def ppFinish (s : PPState) : List Line :=
  s.result ++ flushGroup s.prevIndent s.mergeKeys

/-- `preprocessMultipleMergeKeys` at the level of line lists. -/
def preprocessLines (ls : List Line) : List Line := ppFinish (ppProcess ls ppInit)

/-- `preprocessMultipleMergeKeys`: split on newlines, run the loop, re-join. -/
def preprocessMultipleMergeKeys (yamlText : List Char) : List Char :=
  joinLines (preprocessLines (splitLines yamlText))

/-- The single line that replaces a group of at least two merge-key entries:
`indent` spaces, then `"<<: ["`, the collected trimmed entries joined by
`", "`, and a closing `"]"`. -/
def combineLine (indent : Nat) (gs : List Line) : Line :=
  List.replicate indent ' ' ++ ('<' :: '<' :: ':' :: ' ' :: '[' :: []) ++
    joinSep (',' :: ' ' :: []) gs ++ [']']

/-- No two directly consecutive lines are both merge-key lines (so every
merge-key group the loop forms is a singleton). -/
def noTwoConsecMerge : List Line → Bool
  | [] => true
  | [_] => true
  | a :: b :: rest => (!(isMergeLine a && isMergeLine b)) && noTwoConsecMerge (b :: rest)

/-- No two directly consecutive lines are merge-key lines with the same
indentation — the side condition named by the idempotence claim ("no two
consecutive merge-key lines at the same indentation"). -/
def noConsecSameIndentMerge : List Line → Bool
  | [] => true
  | [_] => true
  | a :: b :: rest =>
    (!(isMergeLine a && isMergeLine b && (leadingIndent a == leadingIndent b))) &&
      noConsecSameIndentMerge (b :: rest)

/-- A merge-key line is canonical when it is exactly its leading spaces
followed by its trimmed content (no tabs, no trailing whitespace); non-merge
lines are unconstrained.  Re-emission of a singleton group reproduces
canonical lines verbatim. -/
def isCanonicalLine (l : Line) : Bool :=
  !(isMergeLine l) || l == List.replicate (leadingIndent l) ' ' ++ goTrimSpace l

/-- Blank lines and comment lines: trimmed content empty or starting with
`#`. -/
def isBlankOrComment (l : Line) : Bool :=
  (goTrimSpace l).isEmpty || ('#' :: []).isPrefixOf (goTrimSpace l)

/-- Invariant of the loop state: every collected group entry is a trimmed
line that starts with the merge marker. -/
def ppInv (s : PPState) : Prop :=
  ∀ m ∈ s.mergeKeys, mergeMarker.isPrefixOf m = true ∧ goTrimSpace m = m

/-! ## Filesystem model and the directory scanner

A directory tree is modelled explicitly; `filepath.WalkDir` reads each
directory's entries in lexical name order, so the model stores each
directory's entries in the order the walk yields them.  A root that does
not exist (or cannot be read) is modelled as `none`: Go's `WalkDir` then
invokes the callback once with a non-nil error, which the callback returns,
and `FindSubdirectories` wraps it as
`"error walking directory %s: %w"`. -/

inductive FSEntry where
  | file (name : List Char)
  | dir (name : List Char) (entries : List FSEntry)

/-- Go `error` values produced by the merge engine, with `fmt.Errorf`
wrapping (`%w`) made explicit. -/
inductive GoError where
  | walkError (root : List Char)
  | fileReadError (path : List Char)
  | unresolvedAnchor (name : List Char)
  | wrapped (msg : List Char) (cause : GoError)

mutual

/-- Directory paths visited by `filepath.WalkDir` strictly below `parent`
for one entry, in depth-first order (each directory before its contents). -/
def walkEntry (parent : List Char) : FSEntry → List (List Char)
  | .file _ => []
  | .dir n es => (parent ++ '/' :: n) :: walkEntries (parent ++ '/' :: n) es

/-- Directory paths visited below `parent` for a list of entries, in
order. -/
def walkEntries (parent : List Char) : List FSEntry → List (List Char)
  | [] => []
  | e :: es => walkEntry parent e ++ walkEntries parent es

end

/-- `FindSubdirectories`: walk the root, collecting every visited directory
path (the root itself is visited first and collected too, since
`d.IsDir()` holds for it); a missing/unreadable root yields the wrapped
walk error. -/
def FindSubdirectoriesM (root : List Char) : Option FSEntry → Except GoError (List (List Char))
  | none => .error (.walkError root)
  | some (.file _) => .ok []
  | some (.dir _ es) => .ok (root :: walkEntries root es)

/-! ## Generic document trees and the anchor-scoped decoder -/

mutual

/-- Generic document tree (spec §3): scalars are canonical tokens
(string/number/bool/null), sequences and mappings preserve order. -/
inductive YValue where
  | scalar (tok : List Char)
  | seq (items : YSeq)
  | map (entries : YMap)

inductive YSeq where
  | nil
  | cons (head : YValue) (tail : YSeq)

inductive YMap where
  | nil
  | cons (key : List Char) (value : YValue) (tail : YMap)

end

mutual

/-- A decoded-but-unresolved YAML node: like `YValue` but possibly
containing alias references to anchors. -/
inductive YNode where
  | scalar (tok : List Char)
  | alias (name : List Char)
  | seq (items : YNodeSeq)
  | map (entries : YNodeMap)

inductive YNodeSeq where
  | nil
  | cons (head : YNode) (tail : YNodeSeq)

inductive YNodeMap where
  | nil
  | cons (key : List Char) (value : YNode) (tail : YNodeMap)

end

/-- The anchor environment gathered by the codec from the reference
directory set: anchor name to defining value, in scan order. -/
abbrev AnchorEnv := List (List Char × YValue)

/-- First binding of an anchor name in the environment. -/
def lookupAnchor (env : AnchorEnv) (n : List Char) : Option YValue :=
  match env with
  | [] => none
  | (k, v) :: rest => if k = n then some v else lookupAnchor rest n

mutual

/-- Modelled from the spec: the external go-yaml decoder (not part of this
repository) resolves every alias against anchors defined anywhere in the
reference directory set, and fails with an unresolved-anchor error when an
alias names an anchor absent from every document of the set (§4.3, §7);
it never substitutes a null value for an unresolved alias. -/
def resolveNode (env : AnchorEnv) : YNode → Except GoError YValue
  | .scalar t => .ok (.scalar t)
  | .alias n =>
    match lookupAnchor env n with
    | some v => .ok v
    | none => .error (.unresolvedAnchor n)
  | .seq xs =>
    match resolveSeq env xs with
    | .ok s => .ok (.seq s)
    | .error e => .error e
  | .map es =>
    match resolveMap env es with
    | .ok m => .ok (.map m)
    | .error e => .error e

/-- Resolution of a sequence of nodes, first failure wins. -/
def resolveSeq (env : AnchorEnv) : YNodeSeq → Except GoError YSeq
  | .nil => .ok .nil
  | .cons x xs =>
    match resolveNode env x with
    | .error e => .error e
    | .ok v =>
      match resolveSeq env xs with
      | .error e => .error e
      | .ok s => .ok (.cons v s)

/-- Resolution of the entries of a mapping, first failure wins. -/
def resolveMap (env : AnchorEnv) : YNodeMap → Except GoError YMap
  | .nil => .ok .nil
  | .cons k x xs =>
    match resolveNode env x with
    | .error e => .error e
    | .ok v =>
      match resolveMap env xs with
      | .error e => .error e
      | .ok m => .ok (.cons k v m)

end

mutual

/-- Whether a node contains an alias whose anchor name is bound nowhere in
the environment. -/
def nodeHasUnbound (env : AnchorEnv) : YNode → Bool
  | .scalar _ => false
  | .alias n => (lookupAnchor env n).isNone
  | .seq xs => seqHasUnbound env xs
  | .map es => mapHasUnbound env es

def seqHasUnbound (env : AnchorEnv) : YNodeSeq → Bool
  | .nil => false
  | .cons x xs => nodeHasUnbound env x || seqHasUnbound env xs

def mapHasUnbound (env : AnchorEnv) : YNodeMap → Bool
  | .nil => false
  | .cons _ x xs => nodeHasUnbound env x || mapHasUnbound env xs

end

/-! ## Merge-key semantics within one mapping -/

/-- Does the mapping bind the key? -/
def ymapHasKey (k : List Char) : YMap → Bool
  | .nil => false
  | .cons k' _ tl => k' = k || ymapHasKey k tl

/-- First binding of the key. -/
def ymapLookup (k : List Char) : YMap → Option YValue
  | .nil => none
  | .cons k' v tl => if k' = k then some v else ymapLookup k tl

/-- Concatenation of mapping entry lists. -/
def ymapAppend : YMap → YMap → YMap
  | .nil, m => m
  | .cons k v tl, m => .cons k v (ymapAppend tl m)

/-- Entries of `m` whose keys are not bound in `explicit`. -/
def ymapDropKeysOf (explicit : YMap) : YMap → YMap
  | .nil => .nil
  | .cons k v tl =>
    if ymapHasKey k explicit then ymapDropKeysOf explicit tl
    else .cons k v (ymapDropKeysOf explicit tl)

/-- Modelled from the spec: the merge semantics the external go-yaml codec
applies inside a single mapping (§4.3) — a merge-key entry injects the
referenced mapping's keys as defaults; any key explicitly written in the
same mapping overrides the merged-in key of the same name *entirely*
(whole-value replacement, no recursive combination of nested mappings). -/
def applyMergeKey (explicit defaults : YMap) : YMap :=
  ymapAppend explicit (ymapDropKeysOf explicit defaults)

/-! ## The canonical serializer and the empty-reference decoder

`yaml.Marshal` and a fresh decode with no reference directories are both
external go-yaml operations.  Modelled from the spec (§6): serialization is
a canonical, fully-expanded rendering of the tree — it contains no anchors
or aliases, and a standard YAML reader can re-parse it with no reference
set.  The model renders flow style with *every* scalar token and mapping
key as a double-quoted, escaped string (the spec's "standard scalar
formatting", so arbitrary scalar content — spaces, delimiters, empty
strings — survives the trip); `decodeEmptyRefs` is the matching reader. -/

/-- The opening curly brace character. -/
def openBrace : Char := Char.ofNat 123

/-- The closing curly brace character. -/
def closeBrace : Char := Char.ofNat 125

/-- Escape the body of a double-quoted scalar: backslash-escape `"` and
`\`, all other characters verbatim. -/
def escape : List Char → List Char
  | [] => []
  | c :: cs =>
    if c = '"' ∨ c = '\\' then '\\' :: c :: escape cs else c :: escape cs

/-- Read the body of a double-quoted scalar (the opening quote already
consumed): an unescaped `"` closes the token, a `\` takes the next
character verbatim; an unterminated quote fails. -/
def punquote : List Char → Option (List Char × List Char)
  | [] => none
  | c :: cs =>
    if c = '"' then some ([], cs)
    else if c = '\\' then
      match cs with
      | [] => none
      | d :: cs' =>
        match punquote cs' with
        | none => none
        | some (tok, rest) => some (d :: tok, rest)
    else
      match punquote cs with
      | none => none
      | some (tok, rest) => some (c :: tok, rest)

mutual

/-- Modelled from the spec: canonical re-serialization of a resolved tree
(`yaml.Marshal` in the source); contains no anchors and no aliases, and
every scalar and key is double-quoted. -/
def mval : YValue → List Char
  | .scalar tok => '"' :: (escape tok ++ ['"'])
  | .seq s => '[' :: (mseq s ++ [']'])
  | .map m => openBrace :: (mmap m ++ [closeBrace])

def mseq : YSeq → List Char
  | .nil => []
  | .cons v tl => mval v ++ mseqRest tl

def mseqRest : YSeq → List Char
  | .nil => []
  | .cons v tl => ',' :: ' ' :: (mval v ++ mseqRest tl)

def mmap : YMap → List Char
  | .nil => []
  | .cons k v tl =>
    '"' :: (escape k ++ '"' :: ':' :: ' ' :: (mval v ++ mmapRest tl))

def mmapRest : YMap → List Char
  | .nil => []
  | .cons k v tl =>
    ',' :: ' ' :: ('"' :: (escape k ++ '"' :: ':' :: ' ' :: (mval v ++ mmapRest tl)))

end

mutual

/-- Modelled from the spec: a standard YAML reader for the canonical
rendering, decoding with an *empty* reference set (no anchor resolution
available).  Fuel-indexed to make the recursion structural. -/
def pval : Nat → List Char → Option (YValue × List Char)
  | 0, _ => none
  | _ + 1, [] => none
  | f + 1, c :: rest =>
    if c = '[' then
      match rest with
      | [] => none
      | d :: r2 =>
        if d = ']' then some (.seq .nil, r2)
        else
          match pseq f (d :: r2) with
          | none => none
          | some (s, r3) =>
            match r3 with
            | [] => none
            | e :: r4 => if e = ']' then some (.seq s, r4) else none
    else if c = openBrace then
      match rest with
      | [] => none
      | d :: r2 =>
        if d = closeBrace then some (.map .nil, r2)
        else
          match pmap f (d :: r2) with
          | none => none
          | some (m, r3) =>
            match r3 with
            | [] => none
            | e :: r4 => if e = closeBrace then some (.map m, r4) else none
    else if c = '"' then
      match punquote rest with
      | none => none
      | some (tok, r) => some (.scalar tok, r)
    else none

def pseq : Nat → List Char → Option (YSeq × List Char)
  | 0, _ => none
  | f + 1, i =>
    match pval f i with
    | none => none
    | some (v, r) =>
      match r with
      | ',' :: ' ' :: r2 =>
        match pseq f r2 with
        | none => none
        | some (s, r3) => some (.cons v s, r3)
      | _ => some (.cons v .nil, r)

def pmap : Nat → List Char → Option (YMap × List Char)
  | 0, _ => none
  | f + 1, i =>
    match i with
    | [] => none
    | c :: r0 =>
      if c = '"' then
        match punquote r0 with
        | none => none
        | some (k, r) =>
          match r with
          | ':' :: ' ' :: r2 =>
            match pval f r2 with
            | none => none
            | some (v, r3) =>
              match r3 with
              | ',' :: ' ' :: r4 =>
                match pmap f r4 with
                | none => none
                | some (m, r5) => some (.cons k v m, r5)
              | _ => some (.cons k v .nil, r3)
          | _ => none
      else none

end

/-- Decode canonical bytes with an empty reference set; succeeds only when
the whole input is consumed. -/
def decodeEmptyRefs (b : List Char) : Option YValue :=
  match pval (b.length + 1) b with
  | some (v, []) => some v
  | _ => none

mutual

/-- Fuel sufficient for `pval` on the rendering of a value. -/
def fbV : YValue → Nat
  | .scalar _ => 1
  | .seq s => 1 + fbS s
  | .map m => 1 + fbM m

def fbS : YSeq → Nat
  | .nil => 0
  | .cons v tl => 1 + max (fbV v) (fbS tl)

def fbM : YMap → Nat
  | .nil => 0
  | .cons _ v tl => 1 + max (fbV v) (fbM tl)

end

/-! ## The orchestrator (`ParseYAMLWithAnchors`, `ParseStack`, `MergeYAML`)

File reading and go-yaml's parse of raw bytes into a node are modelled by a
`fileContents` map from paths to already-parsed nodes (`none` = unreadable
file), and the codec's scan of the reference directories by `anchorsOf`,
mapping the ordered reference directory list to the anchor environment it
induces. -/

/-- Wrapping message `failed to decode YAML`. -/
def failedDecodeMsg : List Char := "failed to decode YAML".toList

/-- Wrapping message `failed to read YAML file %s` (the offending path is
carried by the wrapped cause). -/
def failedReadMsg : List Char := "failed to read YAML file".toList

/-- Wrapping message `failed to find subdirectories`. -/
def failedFindSubdirsMsg : List Char := "failed to find subdirectories".toList

/-- Wrapping message `failed to parse YAML with anchors`. -/
def failedParseMsg : List Char := "failed to parse YAML with anchors".toList

/-- `CustomDecoder.Decode`: resolve against the environment, wrapping any
failure as `failed to decode YAML: %w`.  (The text-level preprocessing step
of `Decode` acts before parsing and is verified separately on the text
representation.) -/
def CustomDecoderDecode (env : AnchorEnv) (doc : YNode) : Except GoError YValue :=
  match resolveNode env doc with
  | .error e => .error (.wrapped failedDecodeMsg e)
  | .ok v => .ok v

/-- `ParseYAMLWithAnchors`: read the stack file, decode it against the
anchor environment of the given reference directories, wrapping failures
(`failed to read YAML file %s: %w`, `failed to decode YAML: %w`). -/
def ParseYAMLWithAnchorsM (fileContents : List Char → Option YNode)
    (anchorsOf : List (List Char) → AnchorEnv)
    (yamlFile : List Char) (anchorDirs : List (List Char)) :
    Except GoError YValue :=
  match fileContents yamlFile with
  | none => .error (.wrapped failedReadMsg (.fileReadError yamlFile))
  | some doc =>
    match CustomDecoderDecode (anchorsOf anchorDirs) doc with
    | .error e => .error (.wrapped failedDecodeMsg e)
    | .ok v => .ok v

/-- The reference directory list `ParseStack` hands to the decoder: the
result of `FindSubdirectories` (which already begins with the catalog root)
with the catalog root prepended once more. -/
def parseStackRefDirs (fs : Option FSEntry) (catalogDir : List Char) :
    Except GoError (List (List Char)) :=
  match FindSubdirectoriesM catalogDir fs with
  | .error e => .error (.wrapped failedFindSubdirsMsg e)
  | .ok subdirs => .ok (catalogDir :: subdirs)

/-- `ParseStack`: scan the catalog, then parse the stack file with the
reference directory list; failures are wrapped
(`failed to find subdirectories: %w`, `failed to parse YAML with anchors: %w`). -/
def ParseStackM (fs : Option FSEntry) (fileContents : List Char → Option YNode)
    (anchorsOf : List (List Char) → AnchorEnv)
    (stackFile catalogDir : List Char) : Except GoError YValue :=
  match parseStackRefDirs fs catalogDir with
  | .error e => .error e
  | .ok refDirs =>
    match ParseYAMLWithAnchorsM fileContents anchorsOf stackFile refDirs with
    | .error e => .error (.wrapped failedParseMsg e)
    | .ok v => .ok v

/-- `MergeYAML`: `ParseStack` followed by `yaml.Marshal` of the resolved
tree. -/
def MergeYAMLM (fs : Option FSEntry) (fileContents : List Char → Option YNode)
    (anchorsOf : List (List Char) → AnchorEnv)
    (stackFile catalogDir : List Char) : Except GoError (List Char) :=
  match ParseStackM fs fileContents anchorsOf stackFile catalogDir with
  | .error e => .error e
  | .ok v => .ok (mval v)

-- ===================================================================
-- Theorems
-- ===================================================================

theorem splitLines_ne_nil (s : List Char) : splitLines s ≠ [] := by
  match s with
  | [] => simp [splitLines]
  | c :: cs =>
    simp only [splitLines]
    split
    · simp
    · match h : splitLines cs with
      | [] => simp
      | l :: ls => simp

theorem joinLines_splitLines (s : List Char) : joinLines (splitLines s) = s := by
  induction s with
  | nil => rfl
  | cons c cs ih =>
    simp only [splitLines]
    by_cases hc : c = '\n'
    · subst hc
      simp only [if_pos rfl]
      match h : splitLines cs with
      | [] => exact absurd h (splitLines_ne_nil cs)
      | l :: ls =>
        rw [h] at ih
        simp [joinLines, ih]
    · rw [if_neg hc]
      match h : splitLines cs with
      | [] => exact absurd h (splitLines_ne_nil cs)
      | [l] =>
        rw [h] at ih
        simp only [joinLines] at ih ⊢
        rw [ih]
      | l :: l' :: ls =>
        rw [h] at ih
        simp only [joinLines] at ih ⊢
        rw [List.cons_append, ih]

example :
    preprocessMultipleMergeKeys
      "\nvars:\n  <<: *defaults\n  name: value\n".toList =
      "\nvars:\n  <<: *defaults\n  name: value\n".toList := by decide

example :
    preprocessMultipleMergeKeys
      "\nvars:\n  <<: *defaults1\n  <<: *defaults2\n  name: value\n".toList =
      "\nvars:\n  <<: [<<: *defaults1, <<: *defaults2]\n  name: value\n".toList := by
  decide

/-! ### Case analysis of one loop iteration -/

theorem ppStep_merge_new (s : PPState) (l : Line)
    (hl : isMergeLine l = true)
    (hcond : leadingIndent l ≠ s.prevIndent ∨ s.prevIsMerge = false) :
    ppStep s l =
      { s with mergeKeys := [goTrimSpace l], prevIndent := leadingIndent l,
               prevIsMerge := true } := by
  unfold ppStep
  rw [if_pos hl, if_pos hcond]

theorem ppStep_merge_cont (s : PPState) (l : Line)
    (hl : isMergeLine l = true)
    (hind : leadingIndent l = s.prevIndent) (hb : s.prevIsMerge = true) :
    ppStep s l =
      { s with mergeKeys := s.mergeKeys ++ [goTrimSpace l], prevIsMerge := true } := by
  unfold ppStep
  rw [if_pos hl, if_neg (by simp [hind, hb])]

theorem ppStep_nonmerge (s : PPState) (l : Line) (hl : isMergeLine l = false) :
    ppStep s l =
      ⟨s.result ++ flushGroup s.prevIndent s.mergeKeys ++ [l], [],
        s.prevIndent, false⟩ := by
  unfold ppStep
  rw [if_neg (by simp [hl])]
  match hk : s.mergeKeys with
  | [] =>
    rw [if_pos (by simp [hk])]
    rcases s with ⟨r, g, j, b⟩
    dsimp only at hk ⊢
    subst hk
    simp [flushGroup]
  | k :: ks =>
    rw [if_neg (by simp [hk])]

/-- A non-merge line always leaves the loop with an empty group and
`prevIsMerge = false`, whatever the incoming state. -/
theorem ppStep_nonmerge_clean (s : PPState) (l : Line) (hl : isMergeLine l = false) :
    (ppStep s l).mergeKeys = [] ∧ (ppStep s l).prevIsMerge = false := by
  rw [ppStep_nonmerge s l hl]
  exact ⟨rfl, rfl⟩

/-! ### The `result` field is write-only -/

theorem ppStep_shift (r : List Line) (g : List Line) (j : Nat) (b : Bool) (l : Line) :
    ppStep ⟨r, g, j, b⟩ l =
      ⟨r ++ (ppStep ⟨[], g, j, b⟩ l).result, (ppStep ⟨[], g, j, b⟩ l).mergeKeys,
        (ppStep ⟨[], g, j, b⟩ l).prevIndent, (ppStep ⟨[], g, j, b⟩ l).prevIsMerge⟩ := by
  unfold ppStep
  dsimp only
  split
  · split <;> simp
  · split <;> simp

theorem ppProcess_shift (ls : List Line) (r : List Line) (g : List Line)
    (j : Nat) (b : Bool) :
    ppProcess ls ⟨r, g, j, b⟩ =
      ⟨r ++ (ppProcess ls ⟨[], g, j, b⟩).result,
        (ppProcess ls ⟨[], g, j, b⟩).mergeKeys,
        (ppProcess ls ⟨[], g, j, b⟩).prevIndent,
        (ppProcess ls ⟨[], g, j, b⟩).prevIsMerge⟩ := by
  induction ls generalizing r g j b with
  | nil => simp [ppProcess]
  | cons l ls ih =>
    show ppProcess ls (ppStep ⟨r, g, j, b⟩ l) = _
    have hstep : ppProcess (l :: ls) ⟨[], g, j, b⟩ =
        ppProcess ls (ppStep ⟨[], g, j, b⟩ l) := rfl
    rw [ppStep_shift]
    rcases ht : ppStep ⟨[], g, j, b⟩ l with ⟨r', g', j', b'⟩
    dsimp only
    rw [ih (r ++ r') g' j' b']
    rw [hstep, ht, ih r' g' j' b']
    simp

theorem ppFinish_shift (r r' : List Line) (g : List Line) (j : Nat) (b : Bool) :
    ppFinish ⟨r ++ r', g, j, b⟩ = r ++ ppFinish ⟨r', g, j, b⟩ := by
  simp [ppFinish]

/-! ### Processing a run of same-indentation merge-key lines -/

theorem ppProcess_merge_run_cont (run : List Line) (k : Nat)
    (h : ∀ l ∈ run, isMergeLine l = true ∧ leadingIndent l = k)
    (r g : List Line) :
    ppProcess run ⟨r, g, k, true⟩ =
      ⟨r, g ++ run.map goTrimSpace, k, true⟩ := by
  induction run generalizing g with
  | nil => simp [ppProcess]
  | cons l run ih =>
    have hl := h l (List.mem_cons_self l run)
    show ppProcess run (ppStep ⟨r, g, k, true⟩ l) = _
    rw [ppStep_merge_cont _ _ hl.1 hl.2 rfl]
    dsimp only
    rw [ih (fun x hx => h x (List.mem_cons_of_mem l hx)) (g ++ [goTrimSpace l])]
    simp

theorem ppProcess_merge_run (l : Line) (run : List Line) (k : Nat)
    (h : ∀ x ∈ l :: run, isMergeLine x = true ∧ leadingIndent x = k)
    (r g : List Line) (j : Nat) :
    ppProcess (l :: run) ⟨r, g, j, false⟩ =
      ⟨r, (l :: run).map goTrimSpace, k, true⟩ := by
  have hl := h l (List.mem_cons_self l run)
  show ppProcess run (ppStep ⟨r, g, j, false⟩ l) = _
  rw [ppStep_merge_new _ _ hl.1 (Or.inr rfl)]
  dsimp only
  rw [hl.2, ppProcess_merge_run_cont run k
    (fun x hx => h x (List.mem_cons_of_mem l hx)) r [goTrimSpace l]]
  simp

theorem flushGroup_two (indent : Nat) (g : List Line) (h : 2 ≤ g.length) :
    flushGroup indent g = [combineLine indent g] := by
  match g with
  | [] => simp at h
  | [k] => simp at h
  | k :: k' :: ks => rfl

/-- A prefix of lines that is empty or ends in a non-merge line leaves the
loop with no open group. -/
theorem ppProcess_clean (pre : List Line)
    (h : pre = [] ∨ ∃ pre' l, pre = pre' ++ [l] ∧ isMergeLine l = false) :
    (ppProcess pre ppInit).mergeKeys = [] ∧
      (ppProcess pre ppInit).prevIsMerge = false := by
  rcases h with h | ⟨pre', l, rfl, hl⟩
  · subst h
    exact ⟨rfl, rfl⟩
  · have : ppProcess (pre' ++ [l]) ppInit = ppStep (ppProcess pre' ppInit) l := by
      simp [ppProcess, List.foldl_append]
    rw [this]
    exact ppStep_nonmerge_clean _ _ hl

/-- Auxiliary grouping lemma: a run of `N ≥ 2` consecutive merge-key lines
at one indentation `k`, opened after a prefix that is empty or ends in a
non-merge line and closed by a non-merge line `t`, is replaced by exactly
one combined merge-key line; the prefix is processed as usual and
processing resumes at `t` with a fresh state. -/
theorem preprocess_combines_merge_key_group_aux
    (pre run rest : List Line) (t : Line) (k : Nat)
    (hpre : pre = [] ∨ ∃ pre' l, pre = pre' ++ [l] ∧ isMergeLine l = false)
    (hrun : ∀ l ∈ run, isMergeLine l = true ∧ leadingIndent l = k)
    (hN : 2 ≤ run.length)
    (ht : isMergeLine t = false) :
    preprocessLines (pre ++ run ++ t :: rest) =
      (ppProcess pre ppInit).result ++
        combineLine k (run.map goTrimSpace) :: t ::
          ppFinish (ppProcess rest ⟨[], [], k, false⟩) := by
  obtain ⟨hg, hb⟩ := ppProcess_clean pre hpre
  have h1 : ppProcess (pre ++ run ++ t :: rest) ppInit =
      ppProcess (t :: rest) (ppProcess run (ppProcess pre ppInit)) := by
    simp [ppProcess, List.foldl_append]
  match run, hN with
  | l :: run', hN' =>
    have heta : ppProcess pre ppInit =
        (⟨(ppProcess pre ppInit).result, (ppProcess pre ppInit).mergeKeys,
          (ppProcess pre ppInit).prevIndent, (ppProcess pre ppInit).prevIsMerge⟩ :
          PPState) := rfl
    have h2 : ppProcess (l :: run') (ppProcess pre ppInit) =
        ⟨(ppProcess pre ppInit).result, (l :: run').map goTrimSpace, k, true⟩ := by
      rw [heta, hg, hb]
      exact ppProcess_merge_run l run' k hrun _ _ _
    have h3 : ppStep (⟨(ppProcess pre ppInit).result,
        (l :: run').map goTrimSpace, k, true⟩ : PPState) t =
        ⟨(ppProcess pre ppInit).result ++
          (combineLine k ((l :: run').map goTrimSpace) :: [t]), [], k, false⟩ := by
      rw [ppStep_nonmerge _ _ ht]
      dsimp only
      rw [flushGroup_two k _ (by simpa using hN')]
      simp
    show ppFinish (ppProcess (pre ++ (l :: run') ++ t :: rest) ppInit) = _
    rw [h1, h2]
    show ppFinish (ppProcess rest (ppStep _ t)) = _
    rw [h3, ppProcess_shift rest _ [] k false]
    have h4 : ppFinish
        (⟨(ppProcess pre ppInit).result ++
            (combineLine k ((l :: run').map goTrimSpace) :: [t]) ++
            (ppProcess rest ⟨[], [], k, false⟩).result,
          (ppProcess rest ⟨[], [], k, false⟩).mergeKeys,
          (ppProcess rest ⟨[], [], k, false⟩).prevIndent,
          (ppProcess rest ⟨[], [], k, false⟩).prevIsMerge⟩ : PPState) =
        ((ppProcess pre ppInit).result ++
            (combineLine k ((l :: run').map goTrimSpace) :: [t])) ++
          ppFinish (ppProcess rest ⟨[], [], k, false⟩) := by
      rw [← ppFinish_shift]
    rw [h4]
    simp

/-- **C1 (counterexample).** The claim is false as stated: in
`"b:\n  <<: *y\n  <<: *z\n<<: *x\nc: 1"` the run of `N = 2` consecutive
merge-key lines at indentation 2 is immediately followed by a merge-key
line at indentation 0; the loop then starts the new group without flushing
the old one, so *no* combined merge-key line is emitted for the run — both
of its references vanish from the output instead of appearing in a single
`<<: [<<: *y, <<: *z]` entry. -/
theorem preprocess_group_dropped_before_indent_change :
    preprocessMultipleMergeKeys "b:\n  <<: *y\n  <<: *z\n<<: *x\nc: 1".toList =
      "b:\n<<: *x\nc: 1".toList ∧
    preprocessMultipleMergeKeys "b:\n  <<: *y\n  <<: *z\n<<: *x\nc: 1".toList ≠
      "b:\n  <<: [<<: *y, <<: *z]\n<<: *x\nc: 1".toList := by
  refine ⟨by decide, by decide⟩

/-- **C1 (amended).** For every run of `N ≥ 2` consecutive merge-key lines
sharing one indentation `k`, opened after a prefix that is empty or ends in
a non-merge line, and *closed* — followed by a non-merge line or by the end
of the document — the normalizer emits, in place of the run, exactly one
merge-key line at indentation `k` whose value lists all `N` original
(trimmed) reference expressions in their original left-to-right order, in
the nested form `<<: [<<: *a, <<: *b]`; the other `N − 1` merge-key lines
are absent from the output, the prefix is processed as usual, and
processing resumes after the closing line with a fresh state.  (A run
followed immediately by a merge-key line at a *different* indentation is
instead dropped wholesale — the bug of the counterexample.) -/
theorem preprocess_combines_closed_merge_key_group
    (pre run tail : List Line) (k : Nat)
    (hpre : pre = [] ∨ ∃ pre' l, pre = pre' ++ [l] ∧ isMergeLine l = false)
    (hrun : ∀ l ∈ run, isMergeLine l = true ∧ leadingIndent l = k)
    (hN : 2 ≤ run.length)
    (htail : tail = [] ∨ ∃ t rest, tail = t :: rest ∧ isMergeLine t = false) :
    preprocessLines (pre ++ run ++ tail) =
      (ppProcess pre ppInit).result ++
        combineLine k (run.map goTrimSpace) ::
          (match tail with
            | [] => ([] : List Line)
            | t :: rest => t :: ppFinish (ppProcess rest ⟨[], [], k, false⟩)) := by
  rcases htail with rfl | ⟨t, rest, rfl, ht⟩
  · obtain ⟨hg, hb⟩ := ppProcess_clean pre hpre
    rw [List.append_nil]
    match run, hN with
    | l :: run', hN' =>
      have heta : ppProcess pre ppInit =
          (⟨(ppProcess pre ppInit).result, (ppProcess pre ppInit).mergeKeys,
            (ppProcess pre ppInit).prevIndent, (ppProcess pre ppInit).prevIsMerge⟩ :
            PPState) := rfl
      have h2 : ppProcess (l :: run') (ppProcess pre ppInit) =
          ⟨(ppProcess pre ppInit).result, (l :: run').map goTrimSpace, k, true⟩ := by
        rw [heta, hg, hb]
        exact ppProcess_merge_run l run' k hrun _ _ _
      show ppFinish (ppProcess (pre ++ (l :: run')) ppInit) = _
      rw [show ppProcess (pre ++ (l :: run')) ppInit =
        ppProcess (l :: run') (ppProcess pre ppInit) from by
          simp [ppProcess, List.foldl_append]]
      rw [h2]
      unfold ppFinish
      dsimp only
      rw [flushGroup_two k _ (by simpa using hN')]
  · exact preprocess_combines_merge_key_group_aux pre run rest t k hpre hrun hN ht

/-- Witness for `preprocess_combines_closed_merge_key_group`: a two-entry
group at the end of the document (`vars:` prefix, entries `<<: *a` and
`<<: *b` at indentation 2, closed by the end of file). -/
theorem preprocess_combines_closed_merge_key_group_witness :
    (∀ l ∈ ["  <<: *a".toList, "  <<: *b".toList],
      isMergeLine l = true ∧ leadingIndent l = 2) ∧
    2 ≤ (["  <<: *a".toList, "  <<: *b".toList] : List Line).length ∧
    preprocessLines
        (["vars:".toList] ++ ["  <<: *a".toList, "  <<: *b".toList] ++ []) =
      (ppProcess ["vars:".toList] ppInit).result ++
        combineLine 2 (["  <<: *a".toList, "  <<: *b".toList].map goTrimSpace) ::
          [] :=
  ⟨by decide, by decide,
    preprocess_combines_closed_merge_key_group ["vars:".toList]
      ["  <<: *a".toList, "  <<: *b".toList] [] 2
      (Or.inr ⟨[], "vars:".toList, rfl, by decide⟩)
      (by decide) (by decide) (Or.inl rfl)⟩

/-! ### Trimming lemmas -/

theorem goTrimLeft_of_trimmed (m : Line) (hm : goTrimSpace m = m) :
    goTrimLeft m = m := by
  have hsuf : goTrimLeft m <:+ m := List.dropWhile_suffix _
  have hpre : m <+: goTrimLeft m := by
    have h := List.rdropWhile_prefix isGoSpace (goTrimLeft m)
    rwa [show (goTrimLeft m).rdropWhile isGoSpace = goTrimSpace m from rfl, hm] at h
  exact hsuf.eq_of_length (le_antisymm hsuf.length_le hpre.length_le)

theorem goTrimRight_of_trimmed (m : Line) (hm : goTrimSpace m = m) :
    goTrimRight m = m := by
  have h : goTrimRight (goTrimLeft m) = m := hm
  rwa [goTrimLeft_of_trimmed m hm] at h

theorem goTrimLeft_goTrimSpace (l : Line) :
    goTrimLeft (goTrimSpace l) = goTrimSpace l := by
  match hy : goTrimSpace l with
  | [] => rfl
  | c :: r =>
    have hprefix : goTrimSpace l <+: goTrimLeft l :=
      List.rdropWhile_prefix isGoSpace (goTrimLeft l)
    rw [hy] at hprefix
    have hc : isGoSpace c = false := by
      rcases hprefix with ⟨w, hw⟩
      have hhead := List.head?_dropWhile_not isGoSpace l
      rw [show List.dropWhile isGoSpace l = goTrimLeft l from rfl, ← hw] at hhead
      simpa using hhead
    simp [goTrimLeft, List.dropWhile_cons, hc]

theorem goTrimSpace_idem (l : Line) :
    goTrimSpace (goTrimSpace l) = goTrimSpace l := by
  show goTrimRight (goTrimLeft (goTrimSpace l)) = goTrimSpace l
  rw [goTrimLeft_goTrimSpace]
  show (goTrimSpace l).rdropWhile isGoSpace = goTrimSpace l
  show ((goTrimLeft l).rdropWhile isGoSpace).rdropWhile isGoSpace = goTrimSpace l
  rw [List.rdropWhile_idempotent]
  rfl

/-- Trimming `indent` spaces followed by an already-trimmed tail gives back
the tail. -/
theorem goTrimSpace_replicate_append (k : Nat) (m : Line)
    (hm : goTrimSpace m = m) :
    goTrimSpace (List.replicate k ' ' ++ m) = m := by
  have hleft : goTrimLeft (List.replicate k ' ' ++ m) = goTrimLeft m := by
    induction k with
    | zero => simp
    | succ k ih =>
      show goTrimLeft (' ' :: (List.replicate k ' ' ++ m)) = goTrimLeft m
      simp only [goTrimLeft, List.dropWhile_cons]
      rw [if_pos (by simp [isGoSpace])]
      exact ih
  show goTrimRight (goTrimLeft (List.replicate k ' ' ++ m)) = m
  rw [hleft, goTrimLeft_of_trimmed m hm]
  exact goTrimRight_of_trimmed m hm

/-- A trimmed line ending in a non-space character (such as `]`) is
unchanged by right trimming. -/
theorem goTrimRight_append_nonspace (y : Line) (c : Char)
    (hc : isGoSpace c = false) :
    goTrimRight (y ++ [c]) = y ++ [c] := by
  show (y ++ [c]).rdropWhile isGoSpace = y ++ [c]
  rw [List.rdropWhile_concat_neg _ _ _ (by simp [hc])]

/-! ### Lines emitted by a flush are merge-key lines -/

theorem isMergeLine_replicate_trimmed (k : Nat) (m : Line)
    (hpre : mergeMarker.isPrefixOf m = true) (hm : goTrimSpace m = m) :
    isMergeLine (List.replicate k ' ' ++ m) = true := by
  unfold isMergeLine
  rw [goTrimSpace_replicate_append k m hm]
  exact hpre

theorem isMergeLine_combineLine (k : Nat) (gs : List Line) :
    isMergeLine (combineLine k gs) = true := by
  unfold combineLine
  have hbody : goTrimSpace
      (('<' :: '<' :: ':' :: ' ' :: '[' :: []) ++ joinSep (',' :: ' ' :: []) gs ++ [']']) =
      ('<' :: '<' :: ':' :: ' ' :: '[' :: []) ++ joinSep (',' :: ' ' :: []) gs ++ [']'] := by
    show goTrimRight (goTrimLeft _) = _
    have h1 : goTrimLeft
        (('<' :: '<' :: ':' :: ' ' :: '[' :: []) ++ joinSep (',' :: ' ' :: []) gs ++ [']']) =
        ('<' :: '<' :: ':' :: ' ' :: '[' :: []) ++ joinSep (',' :: ' ' :: []) gs ++ [']'] := by
      show List.dropWhile isGoSpace ('<' :: _) = _
      rw [List.dropWhile_cons_of_neg (by simp [isGoSpace])]
      simp
    rw [h1]
    rw [show ('<' :: '<' :: ':' :: ' ' :: '[' :: []) ++ joinSep (',' :: ' ' :: []) gs ++ [']'] =
      (('<' :: '<' :: ':' :: ' ' :: '[' :: []) ++ joinSep (',' :: ' ' :: []) gs) ++ [']'] by simp]
    exact goTrimRight_append_nonspace _ ']' (by simp [isGoSpace])
  rw [show List.replicate k ' ' ++ ('<' :: '<' :: ':' :: ' ' :: '[' :: []) ++
        joinSep (',' :: ' ' :: []) gs ++ [']'] =
      List.replicate k ' ' ++ (('<' :: '<' :: ':' :: ' ' :: '[' :: []) ++
        joinSep (',' :: ' ' :: []) gs ++ [']']) by simp]
  unfold isMergeLine
  rw [goTrimSpace_replicate_append _ _ hbody]
  simp [mergeMarker, List.isPrefixOf]

theorem filter_flushGroup (p : Nat) (ks : List Line)
    (hks : ∀ m ∈ ks, mergeMarker.isPrefixOf m = true ∧ goTrimSpace m = m) :
    (flushGroup p ks).filter (fun l => !isMergeLine l) = [] := by
  match ks with
  | [] => rfl
  | [k] =>
    have hk := hks k (by simp)
    simp [flushGroup, List.filter,
      isMergeLine_replicate_trimmed p k hk.1 hk.2]
  | k :: k' :: ks' =>
    have : isMergeLine (combineLine p (k :: k' :: ks')) = true :=
      isMergeLine_combineLine p _
    simp [flushGroup, List.filter, combineLine] at this ⊢
    simp [this]

/-! ### Non-merge lines pass through (frame property) -/

theorem filter_preprocess_aux (ls : List Line) :
    ∀ s : PPState, ppInv s →
      (ppFinish (ppProcess ls s)).filter (fun l => !isMergeLine l) =
        s.result.filter (fun l => !isMergeLine l) ++
          ls.filter (fun l => !isMergeLine l) := by
  induction ls with
  | nil =>
    intro s hinv
    simp [ppProcess, ppFinish, List.filter_append, filter_flushGroup s.prevIndent s.mergeKeys hinv]
  | cons l ls ih =>
    intro s hinv
    show (ppFinish (ppProcess ls (ppStep s l))).filter (fun l => !isMergeLine l) = _
    match hml : isMergeLine l with
    | true =>
      have hstep : (ppStep s l).result = s.result ∧ ppInv (ppStep s l) := by
        unfold ppStep
        rw [if_pos hml]
        split
        · refine ⟨rfl, ?_⟩
          intro m hm
          simp only [List.mem_singleton] at hm
          subst hm
          exact ⟨by simpa [isMergeLine] using hml, goTrimSpace_idem l⟩
        · refine ⟨rfl, ?_⟩
          intro m hm
          simp only [List.mem_append, List.mem_singleton] at hm
          rcases hm with hm | hm
          · exact hinv m hm
          · subst hm
            exact ⟨by simpa [isMergeLine] using hml, goTrimSpace_idem l⟩
      rw [ih (ppStep s l) hstep.2, hstep.1]
      simp [List.filter, hml]
    | false =>
      rw [ppStep_nonmerge s l hml]
      have hclean : ppInv (⟨s.result ++ flushGroup s.prevIndent s.mergeKeys ++ [l], [],
          s.prevIndent, false⟩ : PPState) := by
        intro m hm
        simp at hm
      rw [ih _ hclean]
      simp [List.filter_append, List.filter, hml,
        filter_flushGroup s.prevIndent s.mergeKeys hinv]

/-! ### Identity on documents without adjacent merge-key lines -/

theorem noTwoConsecMerge_tail (a : Line) (rest : List Line)
    (h : noTwoConsecMerge (a :: rest) = true) : noTwoConsecMerge rest = true := by
  match rest with
  | [] => rfl
  | b :: rest' =>
    simp only [noTwoConsecMerge, Bool.and_eq_true] at h
    exact h.2

theorem preprocess_id_aux (n : Nat) :
    ∀ (ls : List Line) (r : List Line) (j : Nat),
      ls.length ≤ n → noTwoConsecMerge ls = true →
      (∀ l ∈ ls, isCanonicalLine l = true) →
      ppFinish (ppProcess ls ⟨r, [], j, false⟩) = r ++ ls := by
  induction n with
  | zero =>
    intro ls r j hlen _ _
    match ls, hlen with
    | [], _ => simp [ppProcess, ppFinish, flushGroup]
  | succ n ih =>
    intro ls r j hlen hcc hcan
    match ls with
    | [] => simp [ppProcess, ppFinish, flushGroup]
    | l :: ls' =>
      match hml : isMergeLine l with
      | false =>
        show ppFinish (ppProcess ls' (ppStep ⟨r, [], j, false⟩ l)) = _
        rw [ppStep_nonmerge _ _ hml]
        dsimp only
        rw [show r ++ flushGroup j [] ++ [l] = r ++ [l] by simp [flushGroup]]
        rw [ih ls' (r ++ [l]) j (by simpa using Nat.le_of_succ_le_succ (by simpa using hlen))
          (noTwoConsecMerge_tail l ls' hcc)
          (fun x hx => hcan x (List.mem_cons_of_mem l hx))]
        simp
      | true =>
        have hcanl : l = List.replicate (leadingIndent l) ' ' ++ goTrimSpace l := by
          have := hcan l (List.mem_cons_self l ls')
          simpa [isCanonicalLine, hml] using this
        show ppFinish (ppProcess ls' (ppStep ⟨r, [], j, false⟩ l)) = _
        rw [ppStep_merge_new _ _ hml (Or.inr rfl)]
        dsimp only
        match ls' with
        | [] =>
          show ppFinish ⟨r, [goTrimSpace l], leadingIndent l, true⟩ = r ++ [l]
          unfold ppFinish flushGroup
          dsimp only
          rw [← hcanl]
        | l' :: ls'' =>
          have hml' : isMergeLine l' = false := by
            simp only [noTwoConsecMerge, Bool.and_eq_true, Bool.not_eq_true',
              Bool.and_eq_false_iff] at hcc
            rcases hcc.1 with h | h
            · rw [hml] at h
              exact absurd h (by simp)
            · exact h
          show ppFinish (ppProcess ls''
            (ppStep ⟨r, [goTrimSpace l], leadingIndent l, true⟩ l')) = _
          rw [ppStep_nonmerge _ _ hml']
          dsimp only
          rw [show r ++ flushGroup (leadingIndent l) [goTrimSpace l] ++ [l'] =
            r ++ [l, l'] by simp [flushGroup, ← hcanl]]
          rw [ih ls'' (r ++ [l, l']) (leadingIndent l)
            (by simp at hlen ⊢; omega)
            (noTwoConsecMerge_tail l' ls'' (noTwoConsecMerge_tail l (l' :: ls'') hcc))
            (fun x hx => hcan x (List.mem_cons_of_mem l (List.mem_cons_of_mem l' hx)))]
          simp

theorem noTwoConsecMerge_of_all_nonmerge (ls : List Line)
    (h : ∀ l ∈ ls, isMergeLine l = false) : noTwoConsecMerge ls = true := by
  match ls with
  | [] => rfl
  | [a] => rfl
  | a :: b :: rest =>
    simp only [noTwoConsecMerge, Bool.and_eq_true]
    refine ⟨?_, noTwoConsecMerge_of_all_nonmerge (b :: rest)
      (fun l hl => h l (List.mem_cons_of_mem a hl))⟩
    rw [h a (List.mem_cons_self a (b :: rest))]
    simp

/-- **C3 (counterexample).** The claim "`preprocessMultipleMergeKeys` is the
identity on every document in which each mapping contains at most one
merge-key entry (no two consecutive merge-key lines at the same
indentation)" is false: in `"a:\n  <<: *x\n<<: *y\nc: 1"` no two consecutive
lines are merge-key lines at the same indentation (and every merge-key line
is in canonical spacing), yet normalization changes the document — the
group opened by `  <<: *x` is silently discarded when the differently
indented `<<: *y` follows it. -/
theorem preprocess_not_identity_single_merge_per_mapping :
    noConsecSameIndentMerge (splitLines "a:\n  <<: *x\n<<: *y\nc: 1".toList) = true ∧
    (∀ l ∈ splitLines "a:\n  <<: *x\n<<: *y\nc: 1".toList, isCanonicalLine l = true) ∧
    preprocessMultipleMergeKeys "a:\n  <<: *x\n<<: *y\nc: 1".toList ≠
      "a:\n  <<: *x\n<<: *y\nc: 1".toList := by
  refine ⟨by decide, by decide, by decide⟩

/-- **C3 (amended).** `preprocessMultipleMergeKeys` is the identity on every
document in which no two directly consecutive lines are both merge-key
lines (at any indentation) and every merge-key line consists exactly of its
leading spaces followed by its trimmed content. -/
theorem preprocess_identity_no_adjacent_merge (d : List Char)
    (h1 : noTwoConsecMerge (splitLines d) = true)
    (h2 : ∀ l ∈ splitLines d, isCanonicalLine l = true) :
    preprocessMultipleMergeKeys d = d := by
  unfold preprocessMultipleMergeKeys preprocessLines
  rw [show ppInit = (⟨[], [], 0, false⟩ : PPState) from rfl]
  rw [preprocess_id_aux (splitLines d).length (splitLines d) [] 0 le_rfl h1 h2]
  simpa using joinLines_splitLines d

/-- Witness for `preprocess_identity_no_adjacent_merge`: a document with one
merge-key entry per mapping, separated by ordinary lines. -/
theorem preprocess_identity_no_adjacent_merge_witness :
    noTwoConsecMerge (splitLines "a:\n  <<: *x\nb:\n  <<: *y\nc: 1".toList) = true ∧
    (∀ l ∈ splitLines "a:\n  <<: *x\nb:\n  <<: *y\nc: 1".toList,
      isCanonicalLine l = true) ∧
    preprocessMultipleMergeKeys "a:\n  <<: *x\nb:\n  <<: *y\nc: 1".toList =
      "a:\n  <<: *x\nb:\n  <<: *y\nc: 1".toList :=
  ⟨by decide, by decide,
    preprocess_identity_no_adjacent_merge "a:\n  <<: *x\nb:\n  <<: *y\nc: 1".toList
      (by decide) (by decide)⟩

/-- **C4 (counterexample).** The claim that blank/comment lines do not
terminate an open merge-key group is false: in `"<<: *a\n\n<<: *b\nx: 1"`
the two merge-key lines are separated only by a blank line at the same
indentation, yet they are *not* combined — the output equals the input and
still contains two separate merge-key lines, not one combined entry. -/
theorem preprocess_blank_line_not_grouped :
    preprocessMultipleMergeKeys "<<: *a\n\n<<: *b\nx: 1".toList =
      "<<: *a\n\n<<: *b\nx: 1".toList ∧
    (preprocessLines (splitLines "<<: *a\n\n<<: *b\nx: 1".toList)).countP
      (fun l => isMergeLine l) = 2 := by
  refine ⟨by decide, by decide⟩

/-- **C4 (amended).** Blank lines and comment lines are copied to the output
unchanged, but they *do* terminate an open merge-key group: on reaching a
blank or comment line the pending group is flushed (before the line is
emitted) and the group state is cleared, so merge-key lines separated by a
blank or comment line are grouped separately. -/
theorem blank_or_comment_flushes_group (s : PPState) (l : Line)
    (hl : isBlankOrComment l = true) :
    ppStep s l =
      ⟨s.result ++ flushGroup s.prevIndent s.mergeKeys ++ [l], [],
        s.prevIndent, false⟩ := by
  apply ppStep_nonmerge
  unfold isBlankOrComment at hl
  unfold isMergeLine
  rcases Bool.or_eq_true_iff.mp hl with h | h
  · rw [List.isEmpty_iff.mp h]
    rfl
  · match hg : goTrimSpace l with
    | [] =>
      rw [hg] at h
      exact absurd h (by simp [List.isPrefixOf])
    | c :: t =>
      rw [hg] at h
      have hc : c = '#' := by
        have := (List.cons_prefix_cons.mp (List.isPrefixOf_iff_prefix.mp h)).1
        exact this.symm
      subst hc
      rfl

/-- Witness for `blank_or_comment_flushes_group`: a comment line closing a
two-entry group. -/
theorem blank_or_comment_flushes_group_witness :
    isBlankOrComment "  # note".toList = true ∧
    ppStep ⟨["vars:".toList], ["<<: *a".toList, "<<: *b".toList], 2, true⟩
        "  # note".toList =
      ⟨["vars:".toList] ++
        flushGroup 2 ["<<: *a".toList, "<<: *b".toList] ++ ["  # note".toList],
        [], 2, false⟩ :=
  ⟨by decide,
    blank_or_comment_flushes_group
      ⟨["vars:".toList], ["<<: *a".toList, "<<: *b".toList], 2, true⟩
      "  # note".toList (by decide)⟩

/-- **C9.** Frame property: every line whose trimmed content does not start
with `<<:` appears verbatim, in its original relative order, in the output
of `preprocessMultipleMergeKeys` (the sublist of non-merge lines is
preserved exactly); in particular a document with no merge-key lines at all
is returned unchanged. -/
theorem preprocess_preserves_nonmerge_lines (d : List Char) :
    (preprocessLines (splitLines d)).filter (fun l => !isMergeLine l) =
      (splitLines d).filter (fun l => !isMergeLine l) ∧
    ((∀ l ∈ splitLines d, isMergeLine l = false) →
      preprocessMultipleMergeKeys d = d) := by
  constructor
  · have h := filter_preprocess_aux (splitLines d) ppInit (by intro m hm; simp [ppInit] at hm)
    simpa [ppInit] using h
  · intro hall
    unfold preprocessMultipleMergeKeys preprocessLines
    rw [show ppInit = (⟨[], [], 0, false⟩ : PPState) from rfl]
    rw [preprocess_id_aux (splitLines d).length (splitLines d) [] 0 le_rfl
      (noTwoConsecMerge_of_all_nonmerge _ hall)
      (fun l hl => by simp [isCanonicalLine, hall l hl])]
    simpa using joinLines_splitLines d

/-- Witness for `preprocess_preserves_nonmerge_lines`: a document without
merge keys is returned unchanged. -/
theorem preprocess_preserves_nonmerge_lines_witness :
    preprocessMultipleMergeKeys "a: 1\nb:\n  c: 2\n".toList =
      "a: 1\nb:\n  c: 2\n".toList :=
  (preprocess_preserves_nonmerge_lines "a: 1\nb:\n  c: 2\n".toList).2 (by decide)

/-- **C10.** Evaluation of the dropping bug: in
`"b:\n  <<: *y\n<<: *x\nc: 1"` the merge-key group opened by `  <<: *y`
(indentation 2) is immediately followed by the merge-key line `<<: *x` at
indentation 0; the loop starts a new group without flushing the old one, so
the reference `*y` disappears from the output entirely — contradicting the
invariant that every merge-key reference of the input occurs exactly once
in the output. -/
theorem preprocess_drops_group_on_indent_change :
    preprocessMultipleMergeKeys "b:\n  <<: *y\n<<: *x\nc: 1".toList =
      "b:\n<<: *x\nc: 1".toList := by decide

/-! ### Claims about the orchestrator and merge semantics -/

/-- **C2.** Override-not-deep-merge, at the claim's own scenario: an anchor
defining `type: terraform` and `vars: (cidr_block, enable_dns)` merged into
a mapping that explicitly sets `vars: (environment: dev)` resolves to a
mapping whose `type` comes from the anchor and whose `vars` is *exactly*
the explicit one-entry mapping — `cidr_block` and `enable_dns` are absent
from it (whole-value replacement, no recursive deep-merge). -/
theorem merge_key_override_replaces_entirely :
    ymapLookup "type".toList
        (applyMergeKey
          (YMap.cons "vars".toList
            (.map (YMap.cons "environment".toList (.scalar "dev".toList) .nil)) .nil)
          (YMap.cons "type".toList (.scalar "terraform".toList)
            (YMap.cons "vars".toList
              (.map (YMap.cons "cidr_block".toList (.scalar "10.0.0.0/16".toList)
                (YMap.cons "enable_dns".toList (.scalar "true".toList) .nil))) .nil))) =
      some (.scalar "terraform".toList) ∧
    ymapLookup "vars".toList
        (applyMergeKey
          (YMap.cons "vars".toList
            (.map (YMap.cons "environment".toList (.scalar "dev".toList) .nil)) .nil)
          (YMap.cons "type".toList (.scalar "terraform".toList)
            (YMap.cons "vars".toList
              (.map (YMap.cons "cidr_block".toList (.scalar "10.0.0.0/16".toList)
                (YMap.cons "enable_dns".toList (.scalar "true".toList) .nil))) .nil))) =
      some (.map (YMap.cons "environment".toList (.scalar "dev".toList) .nil)) ∧
    ymapLookup "cidr_block".toList
        (YMap.cons "environment".toList (.scalar "dev".toList) .nil) = none ∧
    ymapLookup "enable_dns".toList
        (YMap.cons "environment".toList (.scalar "dev".toList) .nil) = none :=
  ⟨rfl, rfl, rfl, rfl⟩

/-- **C5 (counterexample).** The reference directory list `ParseStack`
passes to the decoder is *not* "the catalog root followed by its descendant
directories": for a catalog with a single subdirectory `sub`, the passed
list is `[root, root, root/sub]` — the root appears twice, because
`FindSubdirectories` (via `filepath.WalkDir`) already yields the root
first and `ParseStack` prepends it once more. -/
theorem parseStack_refdirs_duplicates_root :
    parseStackRefDirs
        (some (FSEntry.dir "catalog".toList [FSEntry.dir "sub".toList []]))
        "/c".toList =
      .ok ["/c".toList, "/c".toList, "/c/sub".toList] ∧
    ["/c".toList, "/c".toList, "/c/sub".toList] ≠
      ["/c".toList, "/c/sub".toList] :=
  ⟨rfl, by decide⟩

/-- **C5 (amended).** For every existing catalog root, the reference
directory list `ParseStack` builds and passes to the decoder is: the
catalog root, then the root again (head of the `WalkDir` enumeration),
then all of the root's descendant directories in depth-first order, each
directory before its own subdirectories, siblings in the stored
(lexical) entry order; and `ParseStack` hands exactly this list to
`ParseYAMLWithAnchors`. -/
theorem parseStack_refdirs_structure (name root stackFile : List Char)
    (es : List FSEntry) (fileContents : List Char → Option YNode)
    (anchorsOf : List (List Char) → AnchorEnv) :
    parseStackRefDirs (some (.dir name es)) root =
      .ok (root :: root :: walkEntries root es) ∧
    ParseStackM (some (.dir name es)) fileContents anchorsOf stackFile root =
      (match ParseYAMLWithAnchorsM fileContents anchorsOf stackFile
          (root :: root :: walkEntries root es) with
        | .error e => .error (.wrapped failedParseMsg e)
        | .ok v => .ok v) :=
  ⟨rfl, rfl⟩

/-- **C8.** For a catalog root that does not exist or cannot be read
(filesystem `none`), `ParseStack` returns the directory-scan failure
wrapped with the root path (`failed to find subdirectories: error walking
directory <root>: ...`); it never returns a successfully resolved tree
(and the embedding is total, so no panic is possible). -/
theorem parseStack_missing_catalog_errors (stackFile root : List Char)
    (fileContents : List Char → Option YNode)
    (anchorsOf : List (List Char) → AnchorEnv) :
    ParseStackM none fileContents anchorsOf stackFile root =
      .error (.wrapped failedFindSubdirsMsg (.walkError root)) ∧
    ∀ v, ParseStackM none fileContents anchorsOf stackFile root ≠ .ok v := by
  refine ⟨rfl, ?_⟩
  intro v h
  rw [show ParseStackM none fileContents anchorsOf stackFile root =
      .error (.wrapped failedFindSubdirsMsg (.walkError root)) from rfl] at h
  exact Except.noConfusion h

/-! ### Resolution errors for unresolved anchors -/

mutual

theorem resolveNode_ok_of_not_unbound (env : AnchorEnv) :
    ∀ d : YNode, nodeHasUnbound env d = false → ∃ v, resolveNode env d = .ok v
  | .scalar t, _ => ⟨.scalar t, rfl⟩
  | .alias n, h => by
    simp only [nodeHasUnbound, Option.isNone_eq_false_iff, Option.isSome_iff_exists] at h
    obtain ⟨v, hv⟩ := h
    exact ⟨v, by simp [resolveNode, hv]⟩
  | .seq xs, h => by
    obtain ⟨s, hs⟩ := resolveSeq_ok_of_not_unbound env xs (by simpa [nodeHasUnbound] using h)
    exact ⟨.seq s, by simp [resolveNode, hs]⟩
  | .map es, h => by
    obtain ⟨m, hm⟩ := resolveMap_ok_of_not_unbound env es (by simpa [nodeHasUnbound] using h)
    exact ⟨.map m, by simp [resolveNode, hm]⟩

theorem resolveSeq_ok_of_not_unbound (env : AnchorEnv) :
    ∀ s : YNodeSeq, seqHasUnbound env s = false → ∃ r, resolveSeq env s = .ok r
  | .nil, _ => ⟨.nil, rfl⟩
  | .cons x xs, h => by
    have hx : nodeHasUnbound env x = false := by
      simp only [seqHasUnbound, Bool.or_eq_false_iff] at h
      exact h.1
    have hxs : seqHasUnbound env xs = false := by
      simp only [seqHasUnbound, Bool.or_eq_false_iff] at h
      exact h.2
    obtain ⟨v, hv⟩ := resolveNode_ok_of_not_unbound env x hx
    obtain ⟨r, hr⟩ := resolveSeq_ok_of_not_unbound env xs hxs
    exact ⟨.cons v r, by simp [resolveSeq, hv, hr]⟩

theorem resolveMap_ok_of_not_unbound (env : AnchorEnv) :
    ∀ m : YNodeMap, mapHasUnbound env m = false → ∃ r, resolveMap env m = .ok r
  | .nil, _ => ⟨.nil, rfl⟩
  | .cons k x xs, h => by
    have hx : nodeHasUnbound env x = false := by
      simp only [mapHasUnbound, Bool.or_eq_false_iff] at h
      exact h.1
    have hxs : mapHasUnbound env xs = false := by
      simp only [mapHasUnbound, Bool.or_eq_false_iff] at h
      exact h.2
    obtain ⟨v, hv⟩ := resolveNode_ok_of_not_unbound env x hx
    obtain ⟨r, hr⟩ := resolveMap_ok_of_not_unbound env xs hxs
    exact ⟨.cons k v r, by simp [resolveMap, hv, hr]⟩

end

mutual

theorem resolveNode_err_of_unbound (env : AnchorEnv) :
    ∀ d : YNode, nodeHasUnbound env d = true →
      ∃ n, lookupAnchor env n = none ∧
        resolveNode env d = .error (.unresolvedAnchor n)
  | .alias n, h => by
    simp only [nodeHasUnbound, Option.isNone_iff_eq_none] at h
    exact ⟨n, h, by simp [resolveNode, h]⟩
  | .seq xs, h => by
    obtain ⟨n, hn, hres⟩ :=
      resolveSeq_err_of_unbound env xs (by simpa [nodeHasUnbound] using h)
    exact ⟨n, hn, by simp [resolveNode, hres]⟩
  | .map es, h => by
    obtain ⟨n, hn, hres⟩ :=
      resolveMap_err_of_unbound env es (by simpa [nodeHasUnbound] using h)
    exact ⟨n, hn, by simp [resolveNode, hres]⟩

theorem resolveSeq_err_of_unbound (env : AnchorEnv) :
    ∀ s : YNodeSeq, seqHasUnbound env s = true →
      ∃ n, lookupAnchor env n = none ∧
        resolveSeq env s = .error (.unresolvedAnchor n)
  | .cons x xs, h => by
    match hx : nodeHasUnbound env x with
    | true =>
      obtain ⟨n, hn, hres⟩ := resolveNode_err_of_unbound env x hx
      exact ⟨n, hn, by simp [resolveSeq, hres]⟩
    | false =>
      have hxs : seqHasUnbound env xs = true := by
        simp only [seqHasUnbound, hx, Bool.false_or] at h
        exact h
      obtain ⟨v, hv⟩ := resolveNode_ok_of_not_unbound env x hx
      obtain ⟨n, hn, hres⟩ := resolveSeq_err_of_unbound env xs hxs
      exact ⟨n, hn, by simp [resolveSeq, hv, hres]⟩

theorem resolveMap_err_of_unbound (env : AnchorEnv) :
    ∀ m : YNodeMap, mapHasUnbound env m = true →
      ∃ n, lookupAnchor env n = none ∧
        resolveMap env m = .error (.unresolvedAnchor n)
  | .cons k x xs, h => by
    match hx : nodeHasUnbound env x with
    | true =>
      obtain ⟨n, hn, hres⟩ := resolveNode_err_of_unbound env x hx
      exact ⟨n, hn, by simp [resolveMap, hres]⟩
    | false =>
      have hxs : mapHasUnbound env xs = true := by
        simp only [mapHasUnbound, hx, Bool.false_or] at h
        exact h
      obtain ⟨v, hv⟩ := resolveNode_ok_of_not_unbound env x hx
      obtain ⟨n, hn, hres⟩ := resolveMap_err_of_unbound env xs hxs
      exact ⟨n, hn, by simp [resolveMap, hv, hres]⟩

end

/-- **C7.** If the stack document contains an alias whose anchor name is
bound in no document of the reference directory set (the anchor
environment), decoding fails: `ParseYAMLWithAnchors` returns the
unresolved-anchor error, wrapped by `CustomDecoder.Decode` and wrapped
again by `ParseYAMLWithAnchors` itself — and never a resolved tree (so
never a tree with a silently-null value in the alias's place). -/
theorem parse_unresolved_anchor_errors
    (fileContents : List Char → Option YNode)
    (anchorsOf : List (List Char) → AnchorEnv)
    (yamlFile : List Char) (anchorDirs : List (List Char)) (doc : YNode)
    (hdoc : fileContents yamlFile = some doc)
    (hunbound : nodeHasUnbound (anchorsOf anchorDirs) doc = true) :
    ∃ n, lookupAnchor (anchorsOf anchorDirs) n = none ∧
      ParseYAMLWithAnchorsM fileContents anchorsOf yamlFile anchorDirs =
        .error (.wrapped failedDecodeMsg
          (.wrapped failedDecodeMsg (.unresolvedAnchor n))) ∧
      ∀ v, ParseYAMLWithAnchorsM fileContents anchorsOf yamlFile anchorDirs ≠
        .ok v := by
  obtain ⟨n, hn, hres⟩ := resolveNode_err_of_unbound (anchorsOf anchorDirs) doc hunbound
  refine ⟨n, hn, ?_, ?_⟩
  · simp [ParseYAMLWithAnchorsM, CustomDecoderDecode, hdoc, hres]
  · intro v h
    simp [ParseYAMLWithAnchorsM, CustomDecoderDecode, hdoc, hres] at h

/-- Witness for `parse_unresolved_anchor_errors`: a one-entry mapping
aliasing the anchor `missing` against an empty reference environment. -/
theorem parse_unresolved_anchor_errors_witness :
    (fun _ : List Char =>
        some (YNode.map (.cons "a".toList (.alias "missing".toList) .nil)))
      "/stack.yaml".toList =
      some (YNode.map (.cons "a".toList (.alias "missing".toList) .nil)) ∧
    nodeHasUnbound ((fun _ : List (List Char) => ([] : AnchorEnv)) ["/c".toList])
      (YNode.map (.cons "a".toList (.alias "missing".toList) .nil)) = true ∧
    ∃ n, lookupAnchor (([] : AnchorEnv)) n = none ∧
      ParseYAMLWithAnchorsM
          (fun _ => some (YNode.map (.cons "a".toList (.alias "missing".toList) .nil)))
          (fun _ => ([] : AnchorEnv)) "/stack.yaml".toList ["/c".toList] =
        .error (.wrapped failedDecodeMsg
          (.wrapped failedDecodeMsg (.unresolvedAnchor n))) ∧
      ∀ v, ParseYAMLWithAnchorsM
          (fun _ => some (YNode.map (.cons "a".toList (.alias "missing".toList) .nil)))
          (fun _ => ([] : AnchorEnv)) "/stack.yaml".toList ["/c".toList] ≠ .ok v :=
  ⟨rfl, rfl,
    parse_unresolved_anchor_errors
      (fun _ => some (YNode.map (.cons "a".toList (.alias "missing".toList) .nil)))
      (fun _ => ([] : AnchorEnv)) "/stack.yaml".toList ["/c".toList]
      (YNode.map (.cons "a".toList (.alias "missing".toList) .nil)) rfl rfl⟩

/-! ### Round trip of the canonical codec -/

theorem fbV_pos (v : YValue) : 1 ≤ fbV v := by
  cases v <;> simp [fbV]

theorem punquote_escape (tok rest : List Char) :
    punquote (escape tok ++ '"' :: rest) = some (tok, rest) := by
  induction tok with
  | nil =>
    show punquote ('"' :: rest) = some ([], rest)
    rw [punquote.eq_def]
    simp
  | cons c cs ih =>
    by_cases hc : c = '"' ∨ c = '\\'
    · show punquote ((if c = '"' ∨ c = '\\' then '\\' :: c :: escape cs
        else c :: escape cs) ++ '"' :: rest) = _
      rw [if_pos hc]
      show punquote ('\\' :: (c :: (escape cs ++ '"' :: rest))) = _
      rw [punquote.eq_def]
      simp [ih]
    · have hc1 : c ≠ '"' := fun h => hc (Or.inl h)
      have hc2 : c ≠ '\\' := fun h => hc (Or.inr h)
      show punquote ((if c = '"' ∨ c = '\\' then '\\' :: c :: escape cs
        else c :: escape cs) ++ '"' :: rest) = _
      rw [if_neg hc]
      show punquote (c :: (escape cs ++ '"' :: rest)) = _
      rw [punquote.eq_def]
      simp [ih, hc1, hc2]

theorem mval_head (v : YValue) :
    ∃ d ds, mval v = d :: ds ∧ (d = '[' ∨ d = openBrace ∨ d = '"') := by
  cases v with
  | scalar tok => exact ⟨'"', escape tok ++ ['"'], rfl, Or.inr (Or.inr rfl)⟩
  | seq s => exact ⟨'[', mseq s ++ [']'], rfl, Or.inl rfl⟩
  | map m => exact ⟨openBrace, mmap m ++ [closeBrace], rfl, Or.inr (Or.inl rfl)⟩

theorem mval_head_ne (v : YValue) (d : Char) (ds : List Char)
    (hd : mval v = d :: ds) :
    d ≠ ']' ∧ d ≠ closeBrace ∧ d ≠ ',' := by
  obtain ⟨d', ds', hd', hcase⟩ := mval_head v
  rw [hd] at hd'
  obtain ⟨rfl, -⟩ : d' = d ∧ ds' = ds := by
    injection hd' with h1 h2
    exact ⟨h1.symm, h2.symm⟩
  rcases hcase with rfl | rfl | rfl
  · refine ⟨by decide, by decide, by decide⟩
  · refine ⟨by decide, by decide, by decide⟩
  · refine ⟨by decide, by decide, by decide⟩

mutual

theorem fbV_le_mval : ∀ v : YValue, fbV v ≤ (mval v).length
  | .scalar tok => by
    simp [fbV, mval]
  | .seq s => by
    have hs := fbS_le_mseq s
    simp only [fbV, mval, List.length_cons, List.length_append, List.length_singleton]
    omega
  | .map m => by
    have hm := fbM_le_mmap m
    simp only [fbV, mval, List.length_cons, List.length_append, List.length_singleton]
    omega

theorem fbS_le_mseq : ∀ s : YSeq, fbS s ≤ (mseq s).length + 1
  | .nil => by simp [fbS]
  | .cons v tl => by
    have h1 := fbV_le_mval v
    match tl with
    | .nil =>
      simp only [fbS, mseq, mseqRest, List.append_nil, Nat.max_zero]
      omega
    | .cons w tw =>
      have h2 := fbS_le_mseq (.cons w tw)
      have hmax : max (fbV v) (fbS (.cons w tw)) ≤
          (mval v).length + ((mseq (.cons w tw)).length + 1) :=
        max_le (le_trans h1 (Nat.le_add_right _ _)) (Nat.le_add_left _ _ |>.trans' h2)
      simp only [fbS, mseq, mseqRest, List.length_append, List.length_cons] at hmax ⊢
      omega

theorem fbM_le_mmap : ∀ m : YMap, fbM m ≤ (mmap m).length + 1
  | .nil => by simp [fbM]
  | .cons k v tl => by
    have h1 := fbV_le_mval v
    match tl with
    | .nil =>
      simp only [fbM, mmap, mmapRest, List.append_nil, Nat.max_zero,
        List.length_append, List.length_cons]
      omega
    | .cons k' w tw =>
      have h2 := fbM_le_mmap (.cons k' w tw)
      have hmax : max (fbV v) (fbM (.cons k' w tw)) ≤
          (mval v).length + ((mmap (.cons k' w tw)).length + 1) :=
        max_le (le_trans h1 (Nat.le_add_right _ _)) (Nat.le_add_left _ _ |>.trans' h2)
      simp only [fbM, mmap, mmapRest, List.length_append, List.length_cons] at hmax ⊢
      omega

end

theorem codec_roundtrip : ∀ fuel : Nat,
    (∀ (v : YValue) (rest : List Char), fbV v ≤ fuel →
      pval fuel (mval v ++ rest) = some (v, rest)) ∧
    (∀ (v : YValue) (tl : YSeq) (rest : List Char), fbS (.cons v tl) ≤ fuel →
      pseq fuel (mseq (.cons v tl) ++ ']' :: rest) = some (.cons v tl, ']' :: rest)) ∧
    (∀ (k : List Char) (v : YValue) (tl : YMap) (rest : List Char),
      fbM (.cons k v tl) ≤ fuel →
      pmap fuel (mmap (.cons k v tl) ++ closeBrace :: rest) =
        some (.cons k v tl, closeBrace :: rest)) := by
  intro fuel
  induction fuel with
  | zero =>
    refine ⟨?_, ?_, ?_⟩
    · intro v rest hfb
      have := fbV_pos v
      omega
    · intro v tl rest hfb
      simp [fbS] at hfb
    · intro k v tl rest hfb
      simp [fbM] at hfb
  | succ f ih =>
    obtain ⟨ihV, ihS, ihM⟩ := ih
    refine ⟨?_, ?_, ?_⟩
    · -- pval
      intro v rest hfb
      match v with
      | .scalar tok =>
        show pval (f + 1) ('"' :: ((escape tok ++ ['"']) ++ rest)) = _
        rw [show (escape tok ++ ['"']) ++ rest = escape tok ++ '"' :: rest from by simp]
        simp only [pval]
        rw [punquote_escape]
        simp [(by decide : ¬(('"' : Char) = openBrace))]
      | .seq .nil =>
        show pval (f + 1) ('[' :: ((mseq .nil ++ [']']) ++ rest)) = _
        rw [show (mseq .nil ++ [']']) ++ rest = ']' :: rest from by simp [mseq]]
        simp [pval]
      | .seq (.cons w tw) =>
        have hfb' : fbS (.cons w tw) ≤ f := by
          simp only [fbV] at hfb
          omega
        have hps := ihS w tw rest hfb'
        obtain ⟨d, ds0, hdv, -⟩ := mval_head w
        have hdne : d ≠ ']' := (mval_head_ne w d ds0 hdv).1
        show pval (f + 1) ('[' :: ((mseq (.cons w tw) ++ [']']) ++ rest)) = _
        rw [show (mseq (.cons w tw) ++ [']']) ++ rest =
          d :: (ds0 ++ mseqRest tw ++ ']' :: rest) from by simp [mseq, hdv]]
        simp only [pval, if_pos rfl]
        rw [if_neg hdne]
        rw [show d :: (ds0 ++ mseqRest tw ++ ']' :: rest) =
          mseq (.cons w tw) ++ ']' :: rest from by simp [mseq, hdv]]
        rw [hps]
        simp
      | .map .nil =>
        show pval (f + 1) (openBrace :: ((mmap .nil ++ [closeBrace]) ++ rest)) = _
        rw [show (mmap .nil ++ [closeBrace]) ++ rest = closeBrace :: rest from by
          simp [mmap]]
        simp [pval, (by decide : ¬(openBrace = '[')), (by decide : ¬(closeBrace = ']'))]
      | .map (.cons k w tw) =>
        have hfb' : fbM (.cons k w tw) ≤ f := by
          simp only [fbV] at hfb
          omega
        have hpm := ihM k w tw rest hfb'
        show pval (f + 1) (openBrace :: ((mmap (.cons k w tw) ++ [closeBrace]) ++ rest)) = _
        rw [show (mmap (.cons k w tw) ++ [closeBrace]) ++ rest =
          '"' :: ((escape k ++ '"' :: ':' :: ' ' :: (mval w ++ mmapRest tw)) ++
            closeBrace :: rest) from by simp [mmap]]
        simp only [pval]
        rw [if_neg (by decide : ¬(openBrace = '['))]
        simp only [if_true]
        rw [if_neg (by decide : ¬(('"' : Char) = closeBrace))]
        rw [show ('"' : Char) :: ((escape k ++ '"' :: ':' :: ' ' :: (mval w ++ mmapRest tw)) ++
          closeBrace :: rest) = mmap (.cons k w tw) ++ closeBrace :: rest from by
            simp [mmap]]
        rw [hpm]
        simp
    · -- pseq
      intro v tl rest hfb
      have hfbv : fbV v ≤ f := by
        simp only [fbS] at hfb
        omega
      have hpv := ihV v (mseqRest tl ++ ']' :: rest) hfbv
      show pseq (f + 1) (mseq (.cons v tl) ++ ']' :: rest) = _
      rw [show mseq (.cons v tl) ++ ']' :: rest =
        mval v ++ (mseqRest tl ++ ']' :: rest) from by simp [mseq]]
      simp only [pseq]
      rw [hpv]
      cases tl with
      | nil => simp [mseqRest]
      | cons w tw =>
        have hfb2 : fbS (.cons w tw) ≤ f := by
          simp only [fbS] at hfb ⊢
          omega
        have hrec := ihS w tw rest hfb2
        simp only [mseqRest, List.cons_append]
        rw [show (mval w ++ mseqRest tw) ++ ']' :: rest =
          mseq (.cons w tw) ++ ']' :: rest from by simp [mseq]]
        simp only [hrec]
    · -- pmap
      intro k v tl rest hfb
      have hfbv : fbV v ≤ f := by
        simp only [fbM] at hfb
        omega
      have hpv := ihV v (mmapRest tl ++ closeBrace :: rest) hfbv
      show pmap (f + 1) (mmap (.cons k v tl) ++ closeBrace :: rest) = _
      rw [show mmap (.cons k v tl) ++ closeBrace :: rest =
        '"' :: (escape k ++ '"' :: (':' :: ' ' :: (mval v ++
          (mmapRest tl ++ closeBrace :: rest)))) from by simp [mmap]]
      simp only [pmap, if_true]
      rw [punquote_escape]
      simp only [hpv]
      cases tl with
      | nil =>
        simp only [mmapRest, List.nil_append]
        split
        · rename_i r4 heq
          exfalso
          injection heq with h1 h2
          exact absurd h1 (by decide)
        · rfl
      | cons k' w tw =>
        have hfb2 : fbM (.cons k' w tw) ≤ f := by
          simp only [fbM] at hfb ⊢
          omega
        have hrec := ihM k' w tw rest hfb2
        simp only [mmapRest, List.cons_append]
        rw [show ('"' : Char) :: ((escape k' ++ '"' :: ':' :: ' ' :: (mval w ++ mmapRest tw)) ++
          closeBrace :: rest) = mmap (.cons k' w tw) ++ closeBrace :: rest from by
            simp [mmap]]
        simp only [hrec]

theorem decodeEmptyRefs_mval (v : YValue) :
    decodeEmptyRefs (mval v) = some v := by
  have hb := fbV_le_mval v
  have h := (codec_roundtrip ((mval v).length + 1)).1 v [] (by omega)
  rw [List.append_nil] at h
  unfold decodeEmptyRefs
  rw [h]

/-- **C6.** Round trip: whenever `ParseStack` resolves a stack file to a
tree `v`, `MergeYAML` returns exactly the canonical serialization of `v`,
and decoding those bytes again with an *empty* reference set recovers `v`
itself — the serialized output needs no anchor resolution at all (it
contains no unresolved aliases). -/
theorem mergeYAML_roundtrip
    (fs : Option FSEntry) (fileContents : List Char → Option YNode)
    (anchorsOf : List (List Char) → AnchorEnv) (stackFile catalogDir : List Char)
    (v : YValue)
    (hok : ParseStackM fs fileContents anchorsOf stackFile catalogDir = .ok v) :
    MergeYAMLM fs fileContents anchorsOf stackFile catalogDir = .ok (mval v) ∧
    decodeEmptyRefs (mval v) = some v := by
  refine ⟨?_, decodeEmptyRefs_mval v⟩
  unfold MergeYAMLM
  rw [hok]

/-- Witness for `mergeYAML_roundtrip`: a one-entry stack aliasing a catalog
anchor whose value contains a space, resolved, serialized and decoded
back. -/
theorem mergeYAML_roundtrip_witness :
    ParseStackM (some (FSEntry.dir "c".toList []))
        (fun _ => some (YNode.map (.cons "a".toList (.alias "x".toList) .nil)))
        (fun _ => [("x".toList, YValue.scalar "hello world".toList)])
        "/stack.yaml".toList "/c".toList =
      .ok (YValue.map (.cons "a".toList (.scalar "hello world".toList) .nil)) ∧
    (MergeYAMLM (some (FSEntry.dir "c".toList []))
        (fun _ => some (YNode.map (.cons "a".toList (.alias "x".toList) .nil)))
        (fun _ => [("x".toList, YValue.scalar "hello world".toList)])
        "/stack.yaml".toList "/c".toList =
      .ok (mval (YValue.map (.cons "a".toList (.scalar "hello world".toList) .nil))) ∧
    decodeEmptyRefs
        (mval (YValue.map (.cons "a".toList (.scalar "hello world".toList) .nil))) =
      some (YValue.map (.cons "a".toList (.scalar "hello world".toList) .nil))) :=
  ⟨rfl,
    mergeYAML_roundtrip (some (FSEntry.dir "c".toList []))
      (fun _ => some (YNode.map (.cons "a".toList (.alias "x".toList) .nil)))
      (fun _ => [("x".toList, YValue.scalar "hello world".toList)])
      "/stack.yaml".toList "/c".toList
      (YValue.map (.cons "a".toList (.scalar "hello world".toList) .nil)) rfl⟩

end Skunk
